import Mathlib

/-!
Verification development for the i3 command parser (src/commands_parser.c).
The C code is shallowly embedded: C strings become `List Char` with the
terminating NUL byte modelled as the end of the list (and, where the C code
tests a character against the 0 byte, as the character `nulc`), pointer
walking becomes explicit offsets, the process-global parser state becomes an
explicit machine-state record threaded through the driver, and the external
token table, command handlers and selection-context resets become parameters
and instrumentation fields.  A push onto the full argument stack, which in C
terminates the process, is modelled as the `none` result, which the driver
propagates; running out of loop fuel is also `none`, so every theorem about a
completed parse is conditional on a `some` result.
-/

set_option autoImplicit false

namespace Cmds

/-- The characters the embedding cannot write as plain literals: the double
quote, the backslash, the NUL byte and the single quote. -/
def qmark : Char := Char.ofNat 34

def bslash : Char := Char.ofNat 92

def nulc : Char := Char.ofNat 0

def squote : Char := Char.ofNat 39

/-! ### The string/word sub-lexer, from parse_string (lines 183-231) -/

/-- Scan loop of the quoted branch of parse_string: starting just after the
opening quote, count the characters consumed by
`for (; **walk != 0 && **walk != quote; (*walk)++) if (**walk == backslash && *(*walk + 1) != 0) (*walk)++;`
where a backslash followed by a non-NUL character consumes two characters. -/
def scanQuoted : List Char → Nat
  | [] => 0
  | [c] => if c = nulc ∨ c = qmark then 0 else 1
  | c :: d :: rest =>
    if c = nulc ∨ c = qmark then 0
    else if c = bslash ∧ d ≠ nulc then 2 + scanQuoted rest
    else 1 + scanQuoted (d :: rest)

/-- Scan loop of the unquoted string branch: consume until a semicolon,
comma, NUL, carriage return or newline. -/
def scanString : List Char → Nat
  | [] => 0
  | c :: rest =>
    if c = ';' ∨ c = ',' ∨ c = nulc ∨ c = '\r' ∨ c = '\n' then 0
    else 1 + scanString rest

/-- Scan loop of the unquoted word branch: consume until whitespace, a
closing square bracket, comma, semicolon, carriage return, newline or NUL. -/
def scanWord : List Char → Nat
  | [] => 0
  | c :: rest =>
    if c = ' ' ∨ c = '\t' ∨ c = ']' ∨ c = ',' ∨ c = ';' ∨ c = '\r' ∨ c = '\n' ∨ c = nulc then 0
    else 1 + scanWord rest

/-- The manual copy loop of parse_string (lines 216-228): copy `n` input
positions starting from the head of `s`, where a backslash whose following
character is a double quote or a backslash skips the backslash and copies
the following character (consuming two input positions for one output
character).  The lookahead at the last counted position reads the character
just past the region, exactly as `beginning[inpos + 1]` does in C; past the
end of the list it reads the terminating NUL. -/
def copyLoop : List Char → Nat → List Char
  | [], _ => []
  | _ :: _, 0 => []
  | [c], _ + 1 => [c]
  | c :: d :: rest, n + 1 =>
    if c = bslash ∧ (d = qmark ∨ d = bslash) then d :: copyLoop rest (n - 1)
    else c :: copyLoop (d :: rest) n

/-- Embedding of parse_string.  The input list is the remaining input at the
cursor; the result is the returned capture (`none` for the NULL return) paired
with the number of positions the caller-visible cursor `*walk` advanced. -/
def parse_string (input : List Char) (as_word : Bool) : Option (List Char) × Nat :=
  if input.headD nulc = qmark then
    if scanQuoted input.tail = 0 then (none, 1)
    else (some (copyLoop input.tail (scanQuoted input.tail)), 1 + scanQuoted input.tail)
  else if (if as_word then scanWord input else scanString input) = 0 then (none, 0)
  else (some (copyLoop input (if as_word then scanWord input else scanString input)),
        if as_word then scanWord input else scanString input)

/-- Decoder written from the words of the specification, for comparison with
the copy loop of the code: collapse a backslash immediately followed by a
double quote or a backslash into the second character, and emit every other
character, including a backslash followed by any other character, unaltered. -/
def specUnescape : List Char → List Char
  | [] => []
  | [c] => [c]
  | c :: d :: rest =>
    if c = bslash ∧ (d = qmark ∨ d = bslash) then d :: specUnescape rest
    else c :: specUnescape (d :: rest)

/-! ### The literal matcher (lines 281-292) -/

/-- ASCII lowercasing as done by tolower in the C locale. -/
def toLowerCh (c : Char) : Char :=
  if 'A' ≤ c ∧ c ≤ 'Z' then Char.ofNat (c.toNat + 32) else c

/-- Embedding of `strncasecmp(walk, name + 1, strlen(name) - 1) == 0`: the
first argument is the literal text (without its leading marker), the second
the remaining input; comparison is case-insensitive and the end of the input
list stands for the terminating NUL of the C string. -/
def litMatches : List Char → List Char → Bool
  | [], _ => true
  | l :: _, [] => decide (l = nulc)
  | l :: ls, c :: cs =>
    if toLowerCh l = toLowerCh c then
      (if l = nulc then true else litMatches ls cs)
    else false

/-! ### The number matcher (lines 294-316), via a model of strtol base 10 -/

def LONG_MAX : Int := 2 ^ 63 - 1

def LONG_MIN : Int := -(2 ^ 63)

/-- The whitespace characters skipped by strtol. -/
def isStrtolSpace (c : Char) : Bool :=
  c = ' ' || c = '\t' || c = '\n' || c = Char.ofNat 11 || c = Char.ofNat 12 || c = '\r'

def digitsToNat (acc : Nat) : List Char → Nat
  | [] => acc
  | c :: rest => digitsToNat (acc * 10 + (c.toNat - 48)) rest

/-- Model of `strtol(walk, &end, 10)` on the remaining input: skip strtol
whitespace, read an optional sign and then a maximal run of decimal digits.
Returns the exact mathematical value and the number of characters between
`walk` and `end`, or `none` when no digits convert (then end == walk in C and
the driver leaves the cursor untouched). -/
def strtolModel (s : List Char) : Option (Int × Nat) :=
  let ws := (s.takeWhile isStrtolSpace).length
  let rest := s.drop ws
  let signLen := if rest.headD nulc = '-' ∨ rest.headD nulc = '+' then 1 else 0
  let digits := (rest.drop signLen).takeWhile Char.isDigit
  if digits.length = 0 then none
  else
    let v : Int := Int.ofNat (digitsToNat 0 digits)
    some (if rest.headD nulc = '-' then -v else v, ws + signLen + digits.length)

/-! ### The argument stack (lines 59-138) -/

inductive StackValue where
  | str (s : List Char)
  | num (n : Int)
deriving DecidableEq

/-- One slot of the 10-entry stack: a NULL identifier marks a free slot. -/
structure Slot where
  identifier : Option (List Char)
  val : StackValue
deriving DecidableEq

def emptySlot : Slot := ⟨none, StackValue.num 0⟩

/-- The stack array of struct stack, all 10 slots free. -/
def emptyStack : List Slot := List.replicate 10 emptySlot

/-- Embedding of push_string (lines 64-82): store in the first free slot;
`none` models the stack-full exit of the process. -/
def push_string (stack : List Slot) (identifier : List Char) (str : List Char) :
    Option (List Slot) :=
  match stack with
  | [] => none
  | slot :: rest =>
    match slot.identifier with
    | some _ => (push_string rest identifier str).map (fun r => slot :: r)
    | none => some ({ identifier := some identifier, val := StackValue.str str } :: rest)

/-- Embedding of push_long (lines 85-104). -/
def push_long (stack : List Slot) (identifier : List Char) (num : Int) :
    Option (List Slot) :=
  match stack with
  | [] => none
  | slot :: rest =>
    match slot.identifier with
    | some _ => (push_long rest identifier num).map (fun r => slot :: r)
    | none => some ({ identifier := some identifier, val := StackValue.num num } :: rest)

/-- Common shape of the two push operations, used by the proofs. -/
def push_slot (stack : List Slot) (identifier : List Char) (v : StackValue) :
    Option (List Slot) :=
  match stack with
  | [] => none
  | slot :: rest =>
    match slot.identifier with
    | some _ => (push_slot rest identifier v).map (fun r => slot :: r)
    | none => some ({ identifier := some identifier, val := v } :: rest)

/-- Index of the lowest free slot, if any. -/
def firstFreeIdx : List Slot → Option Nat
  | [] => none
  | slot :: rest =>
    match slot.identifier with
    | none => some 0
    | some _ => (firstFreeIdx rest).map (fun i => i + 1)

/-- Names of the occupied slots, in slot order. -/
def occupiedNames (stack : List Slot) : List (List Char) :=
  stack.filterMap (fun s => s.identifier)

/-- Number of free slots. -/
def countFree (stack : List Slot) : Nat :=
  (stack.filter (fun s => s.identifier.isNone)).length

/-- A sequence of pushes (name and typed value), applied left to right as the
driver would between two stack-clear events; `none` when any push aborts. -/
def applyPushes : List Slot → List (List Char × StackValue) → Option (List Slot)
  | stack, [] => some stack
  | stack, (id, StackValue.str s) :: rest =>
    match push_string stack id s with
    | none => none
    | some st => applyPushes st rest
  | stack, (id, StackValue.num n) :: rest =>
    match push_long stack id n with
    | none => none
    | some st => applyPushes st rest

/-! ### The state machine driver (parse_command, lines 240-435) -/

/-- A next-state entry of the token table: either an ordinary state or the
__CALL marker with its call identifier. -/
inductive CNext where
  | state (s : Nat)
  | call (id : Nat)
deriving DecidableEq

/-- A token descriptor of the generated table (struct token): a name (a
leading single-quote character marks a literal, otherwise the names number,
string, word and end select the matcher), an optional capture identifier and
the next state. -/
structure Token where
  name : List Char
  identifier : Option (List Char)
  next : CNext
deriving DecidableEq

/-- The result a dispatched handler writes into subcommand_output: the
continuation state and the tree-render request flag. -/
structure CommandResultIR where
  next_state : Nat
  needs_tree_render : Bool
deriving DecidableEq

/-- The external collaborators of the core: the generated token table and the
GENERATED_call dispatch into the command handlers. -/
structure Config where
  tokens : Nat → List Token
  call : Nat → List Slot → CommandResultIR

def INITIAL : Nat := 0

/-- The mutable state of one parse_command invocation: current state, cursor
offset, argument stack and result accumulation.  `resets` counts the
cmd_criteria_init calls (the selection-context reinitializations) and
`dispatches` records the needs_tree_render flag returned by each GENERATED_call,
in order; both are instrumentation of external effects. -/
structure MState where
  state : Nat
  walk : Nat
  stack : List Slot
  needs_tree_render : Bool
  resets : Nat
  dispatches : List Bool
deriving DecidableEq

/-- The character at an offset, the terminating NUL past the end. -/
def charAt (input : List Char) (i : Nat) : Char :=
  (input.drop i).headD nulc

/-- The whitespace skip at the top of the driver loop (lines 270-273). -/
def skipWSCount : List Char → Nat
  | [] => 0
  | c :: rest =>
    if c = ' ' ∨ c = '\t' ∨ c = '\r' ∨ c = '\n' then 1 + skipWSCount rest else 0

/-- Push a string capture if the token has an identifier (otherwise no-op). -/
def pushTokStr (t : Token) (s : List Char) (st : MState) : Option MState :=
  match t.identifier with
  | none => some st
  | some id => (push_string st.stack id s).map (fun stk => { st with stack := stk })

/-- Push an integer capture if the token has an identifier. -/
def pushTokNum (t : Token) (n : Int) (st : MState) : Option MState :=
  match t.identifier with
  | none => some st
  | some id => (push_long st.stack id n).map (fun stk => { st with stack := stk })

/-- Embedding of next_state (lines 156-175): on the __CALL marker dispatch the
handler, adopt its continuation state, OR its render flag into the result and
clear the stack; otherwise adopt the next state and clear the stack when it is
INITIAL. -/
def next_state_fn (cfg : Config) (t : Token) (st : MState) : MState :=
  match t.next with
  | CNext.call cid =>
    let sub := cfg.call cid st.stack
    { st with
      state := sub.next_state
      needs_tree_render := st.needs_tree_render || sub.needs_tree_render
      dispatches := st.dispatches ++ [sub.needs_tree_render]
      stack := emptyStack }
  | CNext.state s2 =>
    if s2 = INITIAL then { st with state := s2, stack := emptyStack }
    else { st with state := s2 }

/-- One token attempt of the driver loop body (lines 277-352).  The result is
`none` on a stack-full abort, otherwise the updated machine state and whether
the token was handled.  A failing string/word attempt keeps the cursor motion
parse_string performed, exactly as the C code does with the by-reference
walk. -/
def tryToken (cfg : Config) (input : List Char) (t : Token) (st : MState) :
    Option (MState × Bool) :=
  if t.name.headD nulc = squote then
    if litMatches t.name.tail (input.drop st.walk) then
      match pushTokStr t t.name.tail st with
      | none => none
      | some st1 =>
        some (next_state_fn cfg t { st1 with walk := st1.walk + t.name.tail.length }, true)
    else some (st, false)
  else if t.name = "number".data then
    match strtolModel (input.drop st.walk) with
    | none => some (st, false)
    | some (num, consumed) =>
      if num < LONG_MIN ∨ LONG_MAX < num then some (st, false)
      else
        match pushTokNum t num st with
        | none => none
        | some st1 =>
          some (next_state_fn cfg t { st1 with walk := st1.walk + consumed }, true)
  else if t.name = "string".data ∨ t.name = "word".data then
    match parse_string (input.drop st.walk) (decide (t.name.headD nulc ≠ 's')) with
    | (none, adv) => some ({ st with walk := st.walk + adv }, false)
    | (some s, adv) =>
      match pushTokStr t s st with
      | none => none
      | some st1 =>
        if charAt input (st1.walk + adv) = qmark then
          some (next_state_fn cfg t { st1 with walk := st1.walk + adv + 1 }, true)
        else some (next_state_fn cfg t { st1 with walk := st1.walk + adv }, true)
  else if t.name = "end".data then
    if charAt input st.walk = nulc ∨ charAt input st.walk = ',' ∨ charAt input st.walk = ';' then
      if charAt input st.walk = nulc ∨ charAt input st.walk = ';' then
        some ({ next_state_fn cfg t st with
                resets := (next_state_fn cfg t st).resets + 1
                walk := (next_state_fn cfg t st).walk + 1 }, true)
      else some ({ next_state_fn cfg t st with walk := (next_state_fn cfg t st).walk + 1 }, true)
    else some (st, false)
  else some (st, false)

/-- The inner for loop over the token list of the current state: first handled
token wins; a failing attempt threads its (possibly moved) cursor into the
next attempt. -/
def tryTokens (cfg : Config) (input : List Char) : List Token → MState → Option (MState × Bool)
  | [], st => some (st, false)
  | t :: rest, st =>
    match tryToken cfg input t st with
    | none => none
    | some (st1, true) => some (st1, true)
    | some (st1, false) => tryTokens cfg input rest st1

/-! ### The error formatter (lines 354-427) -/

def errHead : List Char := "Expected one of these tokens: ".data

/-- Rendering of one descriptor in the error message: a literal is wrapped in
single quotes, any other token kind in angle brackets. -/
def tokenErrName (t : Token) : List Char :=
  if t.name.headD nulc = squote then squote :: (t.name.tail ++ [squote])
  else '<' :: (t.name ++ ['>'])

/-- The token enumeration of the error message, in table order, joined by a
comma and a space. -/
def possibleTokens : List Token → List Char
  | [] => []
  | [t] => tokenErrName t
  | t :: u :: rest => tokenErrName t ++ (',' :: ' ' :: possibleTokens (u :: rest))

/-- The caret line (lines 396-399): one character per input character, a space
strictly before the failure offset and a caret from the failure offset on. -/
def caretLine (len walkOff : Nat) : List Char :=
  (List.range len).map (fun i => if i < walkOff then ' ' else '^')

/-- The outcome of one parse_command call.  The first three fields are the
CommandResult of the C code plus the errorposition line the formatter emits;
`resets` and `dispatches` instrument the external effects; `error_state` and
`error_walk` record the state and cursor at the failure point (both `none` on
success). -/
structure ParseOutcome where
  parse_error : Bool
  error_message : Option (List Char)
  errorposition : Option (List Char)
  needs_tree_render : Bool
  resets : Nat
  dispatches : List Bool
  error_state : Option Nat
  error_walk : Option Nat
deriving DecidableEq

def mkSuccess (st : MState) : ParseOutcome :=
  { parse_error := false
    error_message := none
    errorposition := none
    needs_tree_render := st.needs_tree_render
    resets := st.resets
    dispatches := st.dispatches
    error_state := none
    error_walk := none }

def mkError (cfg : Config) (input : List Char) (st : MState) : ParseOutcome :=
  { parse_error := true
    error_message := some (errHead ++ possibleTokens (cfg.tokens st.state))
    errorposition := some (caretLine input.length st.walk)
    needs_tree_render := st.needs_tree_render
    resets := st.resets
    dispatches := st.dispatches
    error_state := some st.state
    error_walk := some st.walk }

/-- The driver loop (lines 268-429), with explicit fuel: while the cursor is
at most the input length, skip whitespace, try the tokens of the current state
in table order, and either continue, stop with an error report, or (past the
length) succeed. -/
def parseLoop (cfg : Config) (input : List Char) : Nat → MState → Option ParseOutcome
  | 0, _ => none
  | fuel + 1, st =>
    if st.walk ≤ input.length then
      match tryTokens cfg input (cfg.tokens st.state)
          { st with walk := st.walk + skipWSCount (input.drop st.walk) } with
      | none => none
      | some (st1, true) => parseLoop cfg input fuel st1
      | some (st1, false) => some (mkError cfg input st1)
    else some (mkSuccess st)

/-- The machine state at the top of parse_command: INITIAL state, cursor 0,
empty stack, no render request; `resets = 1` records the cmd_criteria_init
performed before the loop (line 263). -/
def initMState : MState :=
  { state := INITIAL
    walk := 0
    stack := emptyStack
    needs_tree_render := false
    resets := 1
    dispatches := [] }

/-- Embedding of parse_command, parametrized by the generated table and
handlers and by the loop fuel. -/
def parse_command (cfg : Config) (input : List Char) (fuel : Nat) : Option ParseOutcome :=
  parseLoop cfg input fuel initMState

/-- Disjunction of a list of flags. -/
def orAll (l : List Bool) : Bool := l.any (fun b => b)

/-! ### Concrete token tables and inputs used by the witnesses -/

def tokLitMove : Token := ⟨squote :: "move".data, none, CNext.state 1⟩

def tokLitLeft : Token := ⟨squote :: "left".data, none, CNext.call 0⟩

def tokLitRight : Token := ⟨squote :: "right".data, none, CNext.call 1⟩

def tokEnd0 : Token := ⟨"end".data, none, CNext.state 0⟩

def tokStr0 : Token := ⟨"string".data, none, CNext.state 0⟩

/-- A small table: INITIAL accepts the literal move or a command terminator,
state 1 accepts left or right and dispatches, state 2 accepts a terminator.
The handler for call 0 requests a tree render, the handler for call 1 does
not; both continue in state 2. -/
def cfgA : Config :=
  { tokens := fun s =>
      if s = 0 then [tokLitMove, tokEnd0]
      else if s = 1 then [tokLitLeft, tokLitRight]
      else if s = 2 then [tokEnd0]
      else []
    call := fun cid _ => if cid = 0 then ⟨2, true⟩ else ⟨2, false⟩ }

/-- A table whose INITIAL state accepts only the literal move, for the
error-message scenario. -/
def cfgMove5 : Config :=
  { tokens := fun s => if s = 0 then [tokLitMove] else []
    call := fun _ _ => ⟨0, false⟩ }

def inMoveCommaIn : List Char := "move left, move right".data

def inMoveSemiIn : List Char := "move left; move right".data

def outCommaA : ParseOutcome := ⟨false, none, none, true, 2, [true, false], none, none⟩

def outSemiA : ParseOutcome := ⟨false, none, none, true, 3, [true, false], none, none⟩

def outMoveLeftA : ParseOutcome := ⟨false, none, none, true, 2, [true], none, none⟩

def outMveA : ParseOutcome :=
  ⟨true, some (errHead ++ (squote :: ("move".data ++ [squote]))),
    some (caretLine 8 0), false, 1, [], some 0, some 0⟩

def outEndTokA : MState := ⟨0, 1, emptyStack, false, 1, []⟩

/-! ## Theorems -/

/-! ### Lemmas about the copy loop and the scanners -/

theorem specUnescape_cons (c : Char) (l : List Char)
    (h : ¬(c = bslash ∧ (l.headD nulc = qmark ∨ l.headD nulc = bslash))) :
    specUnescape (c :: l) = c :: specUnescape l := by
  cases l with
  | nil => rfl
  | cons d rest =>
    simp only [List.headD_cons] at h
    simp only [specUnescape, if_neg h]

/-- On a region delimited by scanQuoted, the copy loop of parse_string
computes exactly the decoder written from the specification. -/
theorem copyLoop_scanQuoted : (s : List Char) →
    copyLoop s (scanQuoted s) = specUnescape (s.take (scanQuoted s))
  | [] => by simp [scanQuoted, copyLoop, specUnescape]
  | [c] => by
    by_cases h : c = nulc ∨ c = qmark
    · simp [scanQuoted, if_pos h, copyLoop, specUnescape]
    · simp [scanQuoted, if_neg h, copyLoop, specUnescape]
  | c :: d :: rest => by
    by_cases h0 : c = nulc ∨ c = qmark
    · simp [scanQuoted, if_pos h0, copyLoop, specUnescape]
    · by_cases h1 : c = bslash ∧ d ≠ nulc
      · -- the scan consumes the pair c, d
        have htake : (c :: d :: rest).take (2 + scanQuoted rest)
            = c :: d :: rest.take (scanQuoted rest) := by
          have : 2 + scanQuoted rest = (scanQuoted rest) + 1 + 1 := by omega
          simp [this, List.take_succ_cons]
        by_cases h2 : d = qmark ∨ d = bslash
        · -- escaped quote or backslash: one output character for the pair
          have hs : scanQuoted (c :: d :: rest) = 2 + scanQuoted rest := by
            simp [scanQuoted, if_neg h0, if_pos h1]
          rw [hs, htake]
          have hcopy : copyLoop (c :: d :: rest) (2 + scanQuoted rest)
              = d :: copyLoop rest (scanQuoted rest) := by
            have h21 : 2 + scanQuoted rest = (1 + scanQuoted rest) + 1 := by omega
            rw [h21]
            simp only [copyLoop, if_pos (And.intro h1.1 h2)]
            congr 1
            congr 1
            omega
          rw [hcopy]
          have hspec : specUnescape (c :: d :: rest.take (scanQuoted rest))
              = d :: specUnescape (rest.take (scanQuoted rest)) := by
            simp only [specUnescape, if_pos (And.intro h1.1 h2)]
          rw [hspec, copyLoop_scanQuoted rest]
        · -- backslash followed by an ordinary character: both copied verbatim
          have hs : scanQuoted (c :: d :: rest) = 2 + scanQuoted rest := by
            simp [scanQuoted, if_neg h0, if_pos h1]
          rw [hs, htake]
          have h21 : 2 + scanQuoted rest = (1 + scanQuoted rest) + 1 := by omega
          have hcopy1 : copyLoop (c :: d :: rest) (2 + scanQuoted rest)
              = c :: copyLoop (d :: rest) (1 + scanQuoted rest) := by
            rw [h21]
            simp only [copyLoop, if_neg (by tauto : ¬(c = bslash ∧ (d = qmark ∨ d = bslash)))]
          have hcopy2 : copyLoop (d :: rest) (1 + scanQuoted rest)
              = d :: copyLoop rest (scanQuoted rest) := by
            have hd : d ≠ bslash := by tauto
            cases rest with
            | nil =>
              simp [scanQuoted, copyLoop]
            | cons e t =>
              have h1e : 1 + scanQuoted (e :: t) = (scanQuoted (e :: t)) + 1 := by omega
              rw [h1e]
              simp only [copyLoop, if_neg (by tauto : ¬(d = bslash ∧ (e = qmark ∨ e = bslash)))]
          rw [hcopy1, hcopy2]
          have hspec1 : specUnescape (c :: d :: rest.take (scanQuoted rest))
              = c :: specUnescape (d :: rest.take (scanQuoted rest)) := by
            simp only [specUnescape, if_neg (by tauto : ¬(c = bslash ∧ (d = qmark ∨ d = bslash)))]
          have hspec2 : specUnescape (d :: rest.take (scanQuoted rest))
              = d :: specUnescape (rest.take (scanQuoted rest)) := by
            refine specUnescape_cons d _ ?_
            intro hcd
            exact (by tauto : d ≠ bslash) hcd.1
          rw [hspec1, hspec2, copyLoop_scanQuoted rest]
      · -- ordinary character at the head
        have hs : scanQuoted (c :: d :: rest) = 1 + scanQuoted (d :: rest) := by
          simp [scanQuoted, if_neg h0, if_neg h1]
        rw [hs]
        have hne : ¬(c = bslash ∧ (d = qmark ∨ d = bslash)) := by
          intro hcd
          rcases hcd with ⟨hb, hdq⟩
          apply h1
          refine ⟨hb, ?_⟩
          intro hdn
          rw [hdn] at hdq
          revert hdq
          decide
        have h1s : 1 + scanQuoted (d :: rest) = (scanQuoted (d :: rest)) + 1 := by omega
        have hcopy : copyLoop (c :: d :: rest) (1 + scanQuoted (d :: rest))
            = c :: copyLoop (d :: rest) (scanQuoted (d :: rest)) := by
          rw [h1s]
          simp only [copyLoop, if_neg hne]
        have htake : (c :: d :: rest).take (1 + scanQuoted (d :: rest))
            = c :: (d :: rest).take (scanQuoted (d :: rest)) := by
          rw [h1s]
          simp [List.take_succ_cons]
        rw [hcopy, htake]
        have hspec : specUnescape (c :: (d :: rest).take (scanQuoted (d :: rest)))
            = c :: specUnescape ((d :: rest).take (scanQuoted (d :: rest))) := by
          refine specUnescape_cons c _ ?_
          intro hcd
          rcases hcd with ⟨hb, hdq⟩
          by_cases hz : scanQuoted (d :: rest) = 0
          · rw [hz] at hdq
            simp only [List.take_zero, List.headD_nil] at hdq
            exact absurd hdq (by decide)
          · have : ((d :: rest).take (scanQuoted (d :: rest))).headD nulc = d := by
              cases hsq : scanQuoted (d :: rest) with
              | zero => exact absurd hsq hz
              | succ m => simp [List.take_succ_cons]
            rw [this] at hdq
            exact hne ⟨hb, hdq⟩
        rw [hspec, copyLoop_scanQuoted (d :: rest)]

/-- When the character just past the copied region is neither a double quote
nor a backslash, the copy loop agrees with the decoder of the specification
on the region, for any region length. -/
theorem copyLoop_of_boundary : (s : List Char) → (n : Nat) →
    s.getD n nulc ≠ qmark → s.getD n nulc ≠ bslash →
    copyLoop s n = specUnescape (s.take n)
  | [], n, _, _ => by simp [copyLoop, specUnescape]
  | c :: rest, 0, _, _ => by simp [copyLoop, specUnescape]
  | [c], n + 1, h1, h2 => by
    simp [copyLoop, List.take_succ_cons, specUnescape]
  | c :: d :: rest, n + 1, h1, h2 => by
    have hgd : (c :: d :: rest).getD (n + 1) nulc = (d :: rest).getD n nulc := by
      simp [List.getD_cons_succ]
    rw [hgd] at h1 h2
    by_cases hb : c = bslash ∧ (d = qmark ∨ d = bslash)
    · cases n with
      | zero =>
        exfalso
        rcases hb.2 with hd | hd
        · exact h1 (by simp [hd])
        · exact h2 (by simp [hd])
      | succ m =>
        have hcopy : copyLoop (c :: d :: rest) (m + 1 + 1)
            = d :: copyLoop rest m := by
          simp only [copyLoop, if_pos hb, Nat.add_sub_cancel]
        have htake : (c :: d :: rest).take (m + 1 + 1) = c :: d :: rest.take m := by
          simp [List.take_succ_cons]
        rw [hcopy, htake]
        have hspec : specUnescape (c :: d :: rest.take m)
            = d :: specUnescape (rest.take m) := by
          simp only [specUnescape, if_pos hb]
        rw [hspec]
        have hg : (d :: rest).getD (m + 1) nulc = rest.getD m nulc := by
          simp [List.getD_cons_succ]
        rw [hg] at h1 h2
        rw [copyLoop_of_boundary rest m h1 h2]
    · have hcopy : copyLoop (c :: d :: rest) (n + 1)
          = c :: copyLoop (d :: rest) n := by
        simp only [copyLoop, if_neg hb]
      have htake : (c :: d :: rest).take (n + 1) = c :: (d :: rest).take n := by
        simp [List.take_succ_cons]
      rw [hcopy, htake]
      have hspec : specUnescape (c :: (d :: rest).take n)
          = c :: specUnescape ((d :: rest).take n) := by
        refine specUnescape_cons c _ ?_
        intro hcd
        rcases hcd with ⟨hbs, hdq⟩
        cases n with
        | zero =>
          simp only [List.take_zero, List.headD_nil] at hdq
          exact absurd hdq (by decide)
        | succ m =>
          simp only [List.take_succ_cons, List.headD_cons] at hdq
          exact hb ⟨hbs, hdq⟩
      rw [hspec, copyLoop_of_boundary (d :: rest) n h1 h2]

/-- The character at which the unquoted string scan stops is never a double
quote or a backslash (it is a delimiter, or the NUL past the end). -/
theorem scanString_boundary : (s : List Char) →
    s.getD (scanString s) nulc ≠ qmark ∧ s.getD (scanString s) nulc ≠ bslash
  | [] => by constructor <;> simp [scanString] <;> decide
  | c :: rest => by
    by_cases h : c = ';' ∨ c = ',' ∨ c = nulc ∨ c = '\r' ∨ c = '\n'
    · have hs : scanString (c :: rest) = 0 := by simp [scanString, if_pos h]
      rw [hs]
      simp only [List.getD_cons_zero]
      rcases h with h | h | h | h | h <;> subst h <;> exact ⟨by decide, by decide⟩
    · have hs : scanString (c :: rest) = 1 + scanString rest := by
        simp [scanString, if_neg h]
      rw [hs]
      have h1 : 1 + scanString rest = (scanString rest) + 1 := by omega
      rw [h1]
      simp only [List.getD_cons_succ]
      exact scanString_boundary rest

/-- When parse_string reports no match, the cursor has moved one position
(past the opening quote) on a double-quoted input and zero positions
otherwise. -/
theorem parse_string_none_cursor (input : List Char) (w : Bool)
    (h : (parse_string input w).1 = none) :
    (parse_string input w).2 = if input.headD nulc = qmark then 1 else 0 := by
  unfold parse_string at h ⊢
  by_cases hq : input.headD nulc = qmark
  · rw [if_pos hq] at h ⊢
    by_cases hn : scanQuoted input.tail = 0
    · rw [if_pos hn]
      rw [if_pos hq]
    · rw [if_neg hn] at h
      simp at h
  · rw [if_neg hq] at h ⊢
    by_cases hn : (if w then scanWord input else scanString input) = 0
    · rw [if_pos hn]
      rw [if_neg hq]
    · rw [if_neg hn] at h
      simp at h

/-- The character at which the word scan stops is never a double quote or a
backslash. -/
theorem scanWord_boundary : (s : List Char) →
    s.getD (scanWord s) nulc ≠ qmark ∧ s.getD (scanWord s) nulc ≠ bslash
  | [] => by constructor <;> simp [scanWord] <;> decide
  | c :: rest => by
    by_cases h : c = ' ' ∨ c = '\t' ∨ c = ']' ∨ c = ',' ∨ c = ';' ∨ c = '\r' ∨ c = '\n' ∨ c = nulc
    · have hs : scanWord (c :: rest) = 0 := by simp [scanWord, if_pos h]
      rw [hs]
      simp only [List.getD_cons_zero]
      rcases h with h | h | h | h | h | h | h | h <;> subst h <;> exact ⟨by decide, by decide⟩
    · have hs : scanWord (c :: rest) = 1 + scanWord rest := by
        simp [scanWord, if_neg h]
      rw [hs]
      have h1 : 1 + scanWord rest = (scanWord rest) + 1 := by omega
      rw [h1]
      simp only [List.getD_cons_succ]
      exact scanWord_boundary rest

/-! ### C1: escape decoding of double-quoted values -/

/-- C1: for every double-quoted value accepted by parse_string, the decoded
capture is the consumed text (the region the scanner walked between the
quotes) with each backslash immediately followed by a double quote collapsed
to the double quote and each backslash immediately followed by a backslash
collapsed to the backslash, every other character, including a backslash
followed by any other character, emitted unaltered (the decoder
specUnescape). -/
theorem quoted_capture_unescaped (input : List Char) (w : Bool) (s : List Char)
    (hq : input.headD nulc = qmark)
    (hs : (parse_string input w).1 = some s) :
    s = specUnescape (input.tail.take (scanQuoted input.tail)) := by
  unfold parse_string at hs
  rw [if_pos hq] at hs
  by_cases hn : scanQuoted input.tail = 0
  · rw [if_pos hn] at hs
    simp at hs
  · rw [if_neg hn] at hs
    simp only [Option.some.injEq] at hs
    rw [← hs, copyLoop_scanQuoted]

theorem quoted_capture_unescaped_witness :
    ([qmark, 'a', bslash, qmark, 'b', qmark].headD nulc = qmark) ∧
    (parse_string [qmark, 'a', bslash, qmark, 'b', qmark] false).1 = some ['a', qmark, 'b'] ∧
    ['a', qmark, 'b']
      = specUnescape (([qmark, 'a', bslash, qmark, 'b', qmark] : List Char).tail.take
          (scanQuoted ([qmark, 'a', bslash, qmark, 'b', qmark] : List Char).tail)) :=
  ⟨by decide, by decide,
    quoted_capture_unescaped [qmark, 'a', bslash, qmark, 'b', qmark] false ['a', qmark, 'b']
      (by decide) (by decide)⟩

/-! ### C2: cursor position after a failed sub-lexer attempt -/

/-- C2 counterexample: parse_string applied to a double-quoted empty value
reports no match yet leaves the cursor one position further, past the opening
quote, contradicting the claim that a failed attempt never moves the
cursor. -/
theorem empty_quoted_moves_cursor :
    (parse_string [qmark, qmark] false).1 = none ∧
    (parse_string [qmark, qmark] false).2 = 1 ∧
    (parse_string [qmark] false).1 = none ∧
    (parse_string [qmark] false).2 = 1 := by decide

/-- C2 amended: a failed attempt of the literal, number or end matcher (or of
a token with an unknown name) leaves the machine state, cursor included,
exactly unchanged; a failed string/word attempt leaves it exactly unchanged
when the character at the cursor is not a double quote, and when it is (the
empty quoted value), the attempt fails with only the cursor advanced by
exactly one position, past the opening quote; equivalently, a failed
parse_string reports cursor motion 1 on a double-quoted input and 0
otherwise. -/
theorem failed_attempt_frame :
    (∀ (input : List Char) (w : Bool), (parse_string input w).1 = none →
      (parse_string input w).2 = if input.headD nulc = qmark then 1 else 0)
    ∧ (∀ (cfg : Config) (input : List Char) (t : Token) (st st1 : MState),
        tryToken cfg input t st = some (st1, false) →
        ¬(t.name = "string".data ∨ t.name = "word".data) → st1 = st)
    ∧ (∀ (cfg : Config) (input : List Char) (t : Token) (st st1 : MState),
        tryToken cfg input t st = some (st1, false) →
        (t.name = "string".data ∨ t.name = "word".data) →
        (charAt input st.walk ≠ qmark → st1 = st) ∧
        (charAt input st.walk = qmark → st1 = { st with walk := st.walk + 1 })) := by
  refine ⟨parse_string_none_cursor, ?_, ?_⟩
  · intro cfg input t st st1 h hnot
    unfold tryToken at h
    split at h
    · -- literal token
      split at h
      · split at h
        · simp at h
        · simp at h
      · simp at h
        exact h.symm
    · split at h
      · -- number token
        split at h
        · simp at h
          exact h.symm
        · split at h
          · simp at h
            exact h.symm
          · split at h
            · simp at h
            · simp at h
      · -- the string/word branch is discharged by hnot, leaving the end token
        split at h
        · -- end token
          split at h
          · split at h
            · simp at h
            · simp at h
          · simp at h
            exact h.symm
        · -- unknown token name
          simp at h
          exact h.symm
  · intro cfg input t st st1 h hsw
    unfold tryToken at h
    split at h
    · -- the literal branch would need a leading single quote in the name
      rename_i hsq
      exfalso
      rcases hsw with hs | hs <;> rw [hs] at hsq <;> exact absurd hsq (by decide)
    · split at h
      · rename_i hnum
        exfalso
        rcases hsw with hs | hs <;> rw [hs] at hnum <;> exact absurd hnum (by decide)
      · -- the string/word branch is selected by hsw
        split at h
        · -- parse_string reported no match
          rename_i adv heq
          simp only [Option.some.injEq, Prod.mk.injEq] at h
          have hfst : (parse_string (input.drop st.walk)
              (decide (t.name.headD nulc ≠ 's'))).1 = none := by rw [heq]
          have hadv := parse_string_none_cursor _ _ hfst
          rw [heq] at hadv
          simp only at hadv
          constructor
          · intro hqc
            have hq2 : (input.drop st.walk).headD nulc ≠ qmark := hqc
            rw [if_neg hq2] at hadv
            rw [← h.1, hadv]
            cases st
            simp
          · intro hqc
            have hq2 : (input.drop st.walk).headD nulc = qmark := hqc
            rw [if_pos hq2] at hadv
            rw [← h.1, hadv]
        · -- parse_string matched: the attempt is handled
          split at h
          · simp at h
          · split at h
            · simp at h
            · simp at h

theorem failed_attempt_frame_witness :
    ((parse_string [','] false).1 = none ∧
      (parse_string [','] false).2 = if ([','] : List Char).headD nulc = qmark then 1 else 0) ∧
    (tryToken cfgA "x".data tokLitMove initMState = some (initMState, false) ∧
      initMState = initMState) ∧
    (tryToken cfgA [',', ','] tokStr0 initMState = some (initMState, false) ∧
      initMState = initMState) ∧
    (tryToken cfgA [qmark, qmark] tokStr0 initMState
        = some ({ initMState with walk := initMState.walk + 1 }, false) ∧
      ({ initMState with walk := initMState.walk + 1 } : MState)
        = { initMState with walk := initMState.walk + 1 }) :=
  ⟨⟨by decide, failed_attempt_frame.1 [','] false (by decide)⟩,
    ⟨by decide, failed_attempt_frame.2.1 cfgA "x".data tokLitMove initMState initMState
        (by decide) (by decide)⟩,
    ⟨by decide, (failed_attempt_frame.2.2 cfgA [',', ','] tokStr0 initMState initMState
        (by decide) (Or.inl rfl)).1 (by decide)⟩,
    ⟨by decide, (failed_attempt_frame.2.2 cfgA [qmark, qmark] tokStr0 initMState
        { initMState with walk := initMState.walk + 1 } (by decide) (Or.inl rfl)).2
        (by decide)⟩⟩

/-! ### C3: escape decoding is not restricted to quoted values -/

/-- C3 counterexample: an unquoted string-mode match whose capture collapses
a backslash-quote pair, so the pushed capture differs from the consumed text
although the value is not double-quoted. -/
theorem unquoted_collapse_cex :
    (['a', bslash, qmark, 'b'] : List Char).headD nulc ≠ qmark ∧
    parse_string ['a', bslash, qmark, 'b'] false = (some ['a', qmark, 'b'], 4) ∧
    (['a', qmark, 'b'] : List Char) ≠ ['a', bslash, qmark, 'b'] := by decide

/-- C3 amended: escape decoding applies to unquoted matches as well: for
every unquoted string-mode or word-mode match accepted by parse_string, the
pushed capture is the consumed input text with each backslash-quote and
backslash-backslash sequence collapsed to its second character (the decoder
specUnescape), not the consumed text verbatim. -/
theorem unquoted_capture_unescaped (input : List Char) (w : Bool) (s : List Char)
    (hq : input.headD nulc ≠ qmark)
    (hs : (parse_string input w).1 = some s) :
    s = specUnescape (input.take (parse_string input w).2) := by
  unfold parse_string at hs ⊢
  rw [if_neg hq] at hs ⊢
  by_cases hn : (if w then scanWord input else scanString input) = 0
  · rw [if_pos hn] at hs
    simp at hs
  · rw [if_neg hn] at hs ⊢
    simp only [Option.some.injEq] at hs
    rw [← hs]
    cases w with
    | true =>
      simp only [if_true]
      exact copyLoop_of_boundary input (scanWord input)
        (scanWord_boundary input).1 (scanWord_boundary input).2
    | false =>
      simp only [if_false]
      exact copyLoop_of_boundary input (scanString input)
        (scanString_boundary input).1 (scanString_boundary input).2

theorem unquoted_capture_unescaped_witness :
    ((['a', bslash, qmark, 'b'] : List Char).headD nulc ≠ qmark) ∧
    (parse_string ['a', bslash, qmark, 'b'] false).1 = some ['a', qmark, 'b'] ∧
    ['a', qmark, 'b'] = specUnescape ((['a', bslash, qmark, 'b'] : List Char).take
      (parse_string ['a', bslash, qmark, 'b'] false).2) :=
  ⟨by decide, by decide,
    unquoted_capture_unescaped ['a', bslash, qmark, 'b'] false ['a', qmark, 'b']
      (by decide) (by decide)⟩

/-! ### Lemmas about the argument stack -/

theorem push_string_eq_slot : (stack : List Slot) → (id s : List Char) →
    push_string stack id s = push_slot stack id (StackValue.str s)
  | [], _, _ => rfl
  | slot :: rest, id, s => by
    cases hi : slot.identifier with
    | none => simp [push_string, push_slot, hi]
    | some v => simp [push_string, push_slot, hi, push_string_eq_slot rest id s]

theorem push_long_eq_slot : (stack : List Slot) → (id : List Char) → (n : Int) →
    push_long stack id n = push_slot stack id (StackValue.num n)
  | [], _, _ => rfl
  | slot :: rest, id, n => by
    cases hi : slot.identifier with
    | none => simp [push_long, push_slot, hi]
    | some v => simp [push_long, push_slot, hi, push_long_eq_slot rest id n]

/-- push_slot writes the pushed value into the lowest free slot, leaving every
other slot unchanged, and aborts exactly when no slot is free. -/
theorem push_slot_eq_set : (stack : List Slot) → (id : List Char) → (v : StackValue) →
    push_slot stack id v
      = (firstFreeIdx stack).map (fun i => stack.set i ⟨some id, v⟩)
  | [], _, _ => rfl
  | slot :: rest, id, v => by
    cases hi : slot.identifier with
    | none =>
      simp [push_slot, firstFreeIdx, hi]
    | some w =>
      simp only [push_slot, firstFreeIdx, hi, push_slot_eq_set rest id v, Option.map_map]
      rfl

theorem firstFreeIdx_spec : (stack : List Slot) → (i : Nat) →
    firstFreeIdx stack = some i →
    i < stack.length ∧ (stack.getD i emptySlot).identifier = none ∧
      ∀ j, j < i → (stack.getD j emptySlot).identifier ≠ none
  | [], i, h => by simp [firstFreeIdx] at h
  | slot :: rest, i, h => by
    cases hi : slot.identifier with
    | none =>
      rw [firstFreeIdx, hi] at h
      simp only [Option.some.injEq] at h
      subst h
      refine ⟨by simp, by simpa using hi, by omega⟩
    | some w =>
      rw [firstFreeIdx, hi] at h
      cases hr : firstFreeIdx rest with
      | none => rw [hr] at h; simp at h
      | some i0 =>
        rw [hr] at h
        simp only [Option.map_some', Option.some.injEq] at h
        subst h
        obtain ⟨hlen, hfree, hocc⟩ := firstFreeIdx_spec rest i0 hr
        refine ⟨by simpa using hlen, by simpa using hfree, ?_⟩
        intro j hj
        cases j with
        | zero => simp [hi]
        | succ k =>
          simp only [List.getD_cons_succ]
          exact hocc k (by omega)

theorem firstFreeIdx_none_of_full : (stack : List Slot) →
    (∀ slot ∈ stack, slot.identifier ≠ none) → firstFreeIdx stack = none
  | [], _ => rfl
  | slot :: rest, h => by
    cases hi : slot.identifier with
    | none => exact absurd hi (h slot (by simp))
    | some w =>
      rw [firstFreeIdx, hi, firstFreeIdx_none_of_full rest (fun s hs => h s (by simp [hs]))]
      rfl

theorem firstFreeIdx_isSome_of_free : (stack : List Slot) →
    (∃ slot ∈ stack, slot.identifier = none) → ∃ i, firstFreeIdx stack = some i
  | [], h => by simp at h
  | slot :: rest, h => by
    cases hi : slot.identifier with
    | none => exact ⟨0, by rw [firstFreeIdx, hi]⟩
    | some w =>
      have : ∃ s ∈ rest, s.identifier = none := by
        rcases h with ⟨s, hs, hfree⟩
        rcases List.mem_cons.1 hs with rfl | hmem
        · rw [hi] at hfree; cases hfree
        · exact ⟨s, hmem, hfree⟩
      obtain ⟨i, hii⟩ := firstFreeIdx_isSome_of_free rest this
      exact ⟨i + 1, by rw [firstFreeIdx, hi, hii]; rfl⟩

theorem push_slot_isSome_of_free : (stack : List Slot) → (id : List Char) → (v : StackValue) →
    0 < countFree stack → ∃ st2, push_slot stack id v = some st2
  | [], id, v, h => by simp [countFree] at h
  | slot :: rest, id, v, h => by
    cases hi : slot.identifier with
    | none => exact ⟨_, by rw [push_slot, hi]⟩
    | some w =>
      have hc : 0 < countFree rest := by
        simpa [countFree, List.filter_cons, hi] using h
      obtain ⟨st2, hst⟩ := push_slot_isSome_of_free rest id v hc
      exact ⟨slot :: st2, by rw [push_slot, hi, hst]; rfl⟩

theorem push_slot_countFree : (stack : List Slot) → (id : List Char) → (v : StackValue) →
    (st2 : List Slot) → push_slot stack id v = some st2 →
    countFree st2 + 1 = countFree stack
  | [], id, v, st2, h => by simp [push_slot] at h
  | slot :: rest, id, v, st2, h => by
    cases hi : slot.identifier with
    | none =>
      rw [push_slot, hi] at h
      simp only [Option.some.injEq] at h
      subst h
      simp [countFree, List.filter_cons, hi]
    | some w =>
      rw [push_slot, hi] at h
      cases hr : push_slot rest id v with
      | none => rw [hr] at h; simp at h
      | some r2 =>
        rw [hr] at h
        simp only [Option.map_some', Option.some.injEq] at h
        subst h
        have hrec := push_slot_countFree rest id v r2 hr
        have hc : ∀ l : List Slot, countFree (slot :: l) = countFree l := by
          intro l
          simp [countFree, List.filter_cons, hi]
        rw [hc r2, hc rest]
        exact hrec

/-- The occupied names after a successful push are a permutation of the
pushed name together with the previously occupied names. -/
theorem push_slot_names : (stack : List Slot) → (id : List Char) → (v : StackValue) →
    (st2 : List Slot) → push_slot stack id v = some st2 →
    List.Perm (occupiedNames st2) (id :: occupiedNames stack)
  | [], id, v, st2, h => by simp [push_slot] at h
  | slot :: rest, id, v, st2, h => by
    cases hi : slot.identifier with
    | none =>
      rw [push_slot, hi] at h
      simp only [Option.some.injEq] at h
      subst h
      simp [occupiedNames, List.filterMap_cons, hi]
    | some w =>
      rw [push_slot, hi] at h
      cases hr : push_slot rest id v with
      | none => rw [hr] at h; simp at h
      | some r2 =>
        rw [hr] at h
        simp only [Option.map_some', Option.some.injEq] at h
        subst h
        have hperm := push_slot_names rest id v r2 hr
        have ho : ∀ l : List Slot, occupiedNames (slot :: l) = w :: occupiedNames l := by
          intro l
          simp [occupiedNames, List.filterMap_cons, hi]
        rw [ho r2, ho rest]
        exact (hperm.cons w).trans (List.Perm.swap id w (occupiedNames rest))

theorem applyPushes_ne_none : (ops : List (List Char × StackValue)) → (stack : List Slot) →
    ops.length ≤ countFree stack → applyPushes stack ops ≠ none
  | [], stack, _ => by simp [applyPushes]
  | (id, v) :: rest, stack, h => by
    simp only [List.length_cons] at h
    have hc : 0 < countFree stack := by omega
    obtain ⟨st2, hst⟩ := push_slot_isSome_of_free stack id v hc
    have hcf := push_slot_countFree stack id v st2 hst
    have hrest : rest.length ≤ countFree st2 := by omega
    cases v with
    | str s =>
      rw [applyPushes, push_string_eq_slot, hst]
      exact applyPushes_ne_none rest st2 hrest
    | num n =>
      rw [applyPushes, push_long_eq_slot, hst]
      exact applyPushes_ne_none rest st2 hrest

/-- Occupied names stay duplicate-free along a sequence of pushes whose
pushed names avoid the already occupied ones and are themselves
duplicate-free. -/
theorem applyPushes_nodup : (ops : List (List Char × StackValue)) → (stack : List Slot) →
    (st2 : List Slot) → (occupiedNames stack).Nodup →
    (∀ n ∈ ops.map Prod.fst, n ∉ occupiedNames stack) →
    (ops.map Prod.fst).Nodup →
    applyPushes stack ops = some st2 → (occupiedNames st2).Nodup
  | [], stack, st2, hnd, _, _, h => by
    rw [applyPushes] at h
    simp only [Option.some.injEq] at h
    subst h
    exact hnd
  | (id, v) :: rest, stack, st2, hnd, havoid, hopsnd, h => by
    have hmapcons : ((id, v) :: rest).map Prod.fst = id :: rest.map Prod.fst := rfl
    rw [hmapcons] at havoid hopsnd
    have hstep : ∀ (stx : List Slot), push_slot stack id v = some stx →
        applyPushes stx rest = some st2 → (occupiedNames st2).Nodup := by
      intro stx hpush happ
      have hperm := push_slot_names stack id v stx hpush
      have hid : id ∉ occupiedNames stack :=
        havoid id (List.mem_cons_self id (rest.map Prod.fst))
      have hnd2 : (occupiedNames stx).Nodup :=
        hperm.nodup_iff.2 (List.nodup_cons.2 ⟨hid, hnd⟩)
      refine applyPushes_nodup rest stx st2 hnd2 ?_ ?_ happ
      · intro n hn
        have hne : n ≠ id := by
          intro hEq2
          subst hEq2
          exact (List.nodup_cons.1 hopsnd).1 hn
        have hnot : n ∉ occupiedNames stack :=
          havoid n (List.mem_cons_of_mem id hn)
        intro hmem
        rcases List.mem_cons.1 ((hperm.mem_iff).1 hmem) with hEq2 | hmem2
        · exact hne hEq2
        · exact hnot hmem2
      · exact (List.nodup_cons.1 hopsnd).2
    cases v with
    | str s =>
      rw [applyPushes] at h
      rw [push_string_eq_slot] at h
      cases hp : push_slot stack id (StackValue.str s) with
      | none => rw [hp] at h; simp at h
      | some stx =>
        rw [hp] at h
        exact hstep stx hp h
    | num n =>
      rw [applyPushes] at h
      rw [push_long_eq_slot] at h
      cases hp : push_slot stack id (StackValue.num n) with
      | none => rw [hp] at h; simp at h
      | some stx =>
        rw [hp] at h
        exact hstep stx hp h

/-! ### C8: stack push behaviour and the unreachability of the abort -/

/-- C8: push_string and push_long store the pushed value in the lowest-indexed
free slot, leave all other slots unchanged (the result is the old stack with
that one slot set) and return normally whenever some slot is free; when every
slot is occupied they abort the process (the none result); and a command that
performs at most 10 pushes starting from the cleared 10-slot stack never
reaches the abort branch. -/
theorem push_lowest_free_slot :
    (∀ (stack : List Slot) (i : Nat), firstFreeIdx stack = some i →
      i < stack.length ∧ (stack.getD i emptySlot).identifier = none ∧
        ∀ j, j < i → (stack.getD j emptySlot).identifier ≠ none)
    ∧ (∀ stack : List Slot, (∃ slot ∈ stack, slot.identifier = none) →
        ∃ i, firstFreeIdx stack = some i)
    ∧ (∀ (stack : List Slot) (id s : List Char) (i : Nat), firstFreeIdx stack = some i →
        push_string stack id s = some (stack.set i ⟨some id, StackValue.str s⟩))
    ∧ (∀ (stack : List Slot) (id : List Char) (n : Int) (i : Nat), firstFreeIdx stack = some i →
        push_long stack id n = some (stack.set i ⟨some id, StackValue.num n⟩))
    ∧ (∀ (stack : List Slot) (id s : List Char), (∀ slot ∈ stack, slot.identifier ≠ none) →
        push_string stack id s = none)
    ∧ (∀ (stack : List Slot) (id : List Char) (n : Int),
        (∀ slot ∈ stack, slot.identifier ≠ none) → push_long stack id n = none)
    ∧ (∀ ops : List (List Char × StackValue), ops.length ≤ 10 →
        applyPushes emptyStack ops ≠ none) := by
  refine ⟨firstFreeIdx_spec, firstFreeIdx_isSome_of_free, ?_, ?_, ?_, ?_, ?_⟩
  · intro stack id s i hi
    rw [push_string_eq_slot, push_slot_eq_set, hi]
    rfl
  · intro stack id n i hi
    rw [push_long_eq_slot, push_slot_eq_set, hi]
    rfl
  · intro stack id s hfull
    rw [push_string_eq_slot, push_slot_eq_set, firstFreeIdx_none_of_full stack hfull]
    rfl
  · intro stack id n hfull
    rw [push_long_eq_slot, push_slot_eq_set, firstFreeIdx_none_of_full stack hfull]
    rfl
  · intro ops hlen
    refine applyPushes_ne_none ops emptyStack ?_
    rw [show countFree emptyStack = 10 from by decide]
    exact hlen

theorem push_lowest_free_slot_witness :
    firstFreeIdx emptyStack = some 0 ∧
    push_string emptyStack "a".data "x".data
      = some (emptyStack.set 0 ⟨some "a".data, StackValue.str "x".data⟩) ∧
    applyPushes emptyStack [("a".data, StackValue.str "x".data)] ≠ none :=
  ⟨by decide,
    push_lowest_free_slot.2.2.1 emptyStack "a".data "x".data 0 (by decide),
    push_lowest_free_slot.2.2.2.2.2.2 [("a".data, StackValue.str "x".data)] (by decide)⟩

/-! ### C9: distinctness of occupied slot names -/

/-- C9 counterexample: two pushes with the same identifier, starting from the
cleared stack, leave two occupied slots sharing one name, so the claimed
invariant fails for this push sequence. -/
theorem dup_name_pushes_cex :
    (applyPushes emptyStack [("a".data, StackValue.str "x".data),
        ("a".data, StackValue.str "y".data)]).map occupiedNames
      = some ["a".data, "a".data] ∧
    ¬ (["a".data, "a".data] : List (List Char)).Nodup := by decide

/-- C9 amended: provided the identifiers pushed between two stack-clear
events are pairwise distinct (which a well-formed token table guarantees),
every push sequence from the cleared stack leaves the occupied slots with
pairwise distinct names. -/
theorem names_nodup_of_distinct_pushes (ops : List (List Char × StackValue))
    (st2 : List Slot) (hnd : (ops.map Prod.fst).Nodup)
    (h : applyPushes emptyStack ops = some st2) :
    (occupiedNames st2).Nodup := by
  refine applyPushes_nodup ops emptyStack st2 ?_ ?_ hnd h
  · rw [show occupiedNames emptyStack = [] from by decide]
    exact List.nodup_nil
  · intro n hn
    rw [show occupiedNames emptyStack = [] from by decide]
    simp

theorem names_nodup_of_distinct_pushes_witness :
    (occupiedNames (⟨some "a".data, StackValue.str "x".data⟩ ::
        ⟨some "b".data, StackValue.num 2⟩ :: List.replicate 8 emptySlot)).Nodup :=
  names_nodup_of_distinct_pushes
    [("a".data, StackValue.str "x".data), ("b".data, StackValue.num 2)]
    (⟨some "a".data, StackValue.str "x".data⟩ ::
      ⟨some "b".data, StackValue.num 2⟩ :: List.replicate 8 emptySlot)
    (by decide) (by decide)

/-! ### Lemmas about the driver -/

theorem orAll_append (a b : List Bool) : orAll (a ++ b) = (orAll a || orAll b) := by
  simp [orAll, List.any_append]

theorem pushTokStr_frame (t : Token) (s : List Char) (st st1 : MState)
    (h : pushTokStr t s st = some st1) :
    st1.state = st.state ∧ st1.walk = st.walk ∧
      st1.needs_tree_render = st.needs_tree_render ∧
      st1.resets = st.resets ∧ st1.dispatches = st.dispatches := by
  unfold pushTokStr at h
  split at h
  · simp only [Option.some.injEq] at h
    subst h
    exact ⟨rfl, rfl, rfl, rfl, rfl⟩
  · rename_i id hid
    cases hp : push_string st.stack id s with
    | none => rw [hp] at h; simp at h
    | some stk =>
      rw [hp] at h
      simp only [Option.map_some', Option.some.injEq] at h
      subst h
      exact ⟨rfl, rfl, rfl, rfl, rfl⟩

theorem pushTokNum_frame (t : Token) (n : Int) (st st1 : MState)
    (h : pushTokNum t n st = some st1) :
    st1.state = st.state ∧ st1.walk = st.walk ∧
      st1.needs_tree_render = st.needs_tree_render ∧
      st1.resets = st.resets ∧ st1.dispatches = st.dispatches := by
  unfold pushTokNum at h
  split at h
  · simp only [Option.some.injEq] at h
    subst h
    exact ⟨rfl, rfl, rfl, rfl, rfl⟩
  · rename_i id hid
    cases hp : push_long st.stack id n with
    | none => rw [hp] at h; simp at h
    | some stk =>
      rw [hp] at h
      simp only [Option.map_some', Option.some.injEq] at h
      subst h
      exact ⟨rfl, rfl, rfl, rfl, rfl⟩

/-- next_state_fn never touches the reset count or the cursor, and extends the
dispatch record by the flags it ORs into the render request. -/
theorem next_state_fn_frame (cfg : Config) (t : Token) (st : MState) :
    (next_state_fn cfg t st).resets = st.resets ∧
    (next_state_fn cfg t st).walk = st.walk ∧
    ∃ ds, (next_state_fn cfg t st).dispatches = st.dispatches ++ ds ∧
      (next_state_fn cfg t st).needs_tree_render = (st.needs_tree_render || orAll ds) := by
  rcases htn : t.next with s2 | cid
  · simp only [next_state_fn, htn]
    by_cases h : s2 = INITIAL
    · rw [if_pos h]
      refine ⟨?_, ?_, [], ?_, ?_⟩ <;> simp [orAll]
    · rw [if_neg h]
      refine ⟨?_, ?_, [], ?_, ?_⟩ <;> simp [orAll]
  · simp only [next_state_fn, htn]
    refine ⟨?_, ?_, [(cfg.call cid st.stack).needs_tree_render], ?_, ?_⟩ <;> simp [orAll]

/-- A handled transition from a pushed state with cursor update, seen from the
pre-push state: the frame of next_state_fn composed with the frame of a
push. -/
theorem handled_state_frame (cfg : Config) (t : Token) (st st0 : MState) (w2 : Nat)
    (h1 : st0.needs_tree_render = st.needs_tree_render)
    (h2 : st0.resets = st.resets) (h3 : st0.dispatches = st.dispatches) :
    ∃ ds, (next_state_fn cfg t { st0 with walk := w2 }).dispatches = st.dispatches ++ ds ∧
      (next_state_fn cfg t { st0 with walk := w2 }).needs_tree_render
        = (st.needs_tree_render || orAll ds) ∧
      (next_state_fn cfg t { st0 with walk := w2 }).resets = st.resets := by
  obtain ⟨hr, hw, ds, hd, hn⟩ := next_state_fn_frame cfg t { st0 with walk := w2 }
  refine ⟨ds, ?_, ?_, ?_⟩
  · rw [hd]
    show st0.dispatches ++ ds = st.dispatches ++ ds
    rw [h3]
  · rw [hn]
    show (st0.needs_tree_render || orAll ds) = _
    rw [h1]
  · rw [hr]
    exact h2

/-- Frame of one token attempt: the dispatch record only grows, the render
flag is the OR of the old flag and the new dispatch flags, and the reset count
can only grow at an end token. -/
theorem tryToken_frame (cfg : Config) (input : List Char) (t : Token) (st st1 : MState)
    (b : Bool) (h : tryToken cfg input t st = some (st1, b)) :
    ∃ ds k, st1.dispatches = st.dispatches ++ ds ∧
      st1.needs_tree_render = (st.needs_tree_render || orAll ds) ∧
      st1.resets = st.resets + k ∧
      (t.name ≠ "end".data → k = 0) := by
  unfold tryToken at h
  split at h
  · -- literal token
    split at h
    · split at h
      · simp at h
      · rename_i st0 hpush
        simp only [Option.some.injEq, Prod.mk.injEq] at h
        obtain ⟨hst, hb⟩ := h
        obtain ⟨_, _, hn, hr, hd⟩ := pushTokStr_frame t t.name.tail st st0 hpush
        obtain ⟨ds, had, han, har⟩ := handled_state_frame cfg t st st0 _ hn hr hd
        refine ⟨ds, 0, ?_, ?_, ?_, fun _ => rfl⟩
        · rw [← hst]; exact had
        · rw [← hst]; exact han
        · rw [← hst, har, Nat.add_zero]
    · simp only [Option.some.injEq, Prod.mk.injEq] at h
      obtain ⟨hst, hb⟩ := h
      subst hst
      exact ⟨[], 0, by simp, by simp [orAll], rfl, fun _ => rfl⟩
  · split at h
    · -- number token
      split at h
      · simp only [Option.some.injEq, Prod.mk.injEq] at h
        obtain ⟨hst, hb⟩ := h
        subst hst
        exact ⟨[], 0, by simp, by simp [orAll], rfl, fun _ => rfl⟩
      · split at h
        · simp only [Option.some.injEq, Prod.mk.injEq] at h
          obtain ⟨hst, hb⟩ := h
          subst hst
          exact ⟨[], 0, by simp, by simp [orAll], rfl, fun _ => rfl⟩
        · split at h
          · simp at h
          · rename_i st0 hpush
            simp only [Option.some.injEq, Prod.mk.injEq] at h
            obtain ⟨hst, hb⟩ := h
            obtain ⟨_, _, hn, hr, hd⟩ := pushTokNum_frame t _ st st0 hpush
            obtain ⟨ds, had, han, har⟩ := handled_state_frame cfg t st st0 _ hn hr hd
            refine ⟨ds, 0, ?_, ?_, ?_, fun _ => rfl⟩
            · rw [← hst]; exact had
            · rw [← hst]; exact han
            · rw [← hst, har, Nat.add_zero]
    · split at h
      · -- string or word token
        split at h
        · simp only [Option.some.injEq, Prod.mk.injEq] at h
          obtain ⟨hst, hb⟩ := h
          rw [← hst]
          exact ⟨[], 0, by simp, by simp [orAll], rfl, fun _ => rfl⟩
        · split at h
          · simp at h
          · rename_i st0 hpush
            split at h
            · simp only [Option.some.injEq, Prod.mk.injEq] at h
              obtain ⟨hst, hb⟩ := h
              obtain ⟨_, _, hn, hr, hd⟩ := pushTokStr_frame t _ st st0 hpush
              obtain ⟨ds, had, han, har⟩ := handled_state_frame cfg t st st0 _ hn hr hd
              refine ⟨ds, 0, ?_, ?_, ?_, fun _ => rfl⟩
              · rw [← hst]; exact had
              · rw [← hst]; exact han
              · rw [← hst, har, Nat.add_zero]
            · simp only [Option.some.injEq, Prod.mk.injEq] at h
              obtain ⟨hst, hb⟩ := h
              obtain ⟨_, _, hn, hr, hd⟩ := pushTokStr_frame t _ st st0 hpush
              obtain ⟨ds, had, han, har⟩ := handled_state_frame cfg t st st0 _ hn hr hd
              refine ⟨ds, 0, ?_, ?_, ?_, fun _ => rfl⟩
              · rw [← hst]; exact had
              · rw [← hst]; exact han
              · rw [← hst, har, Nat.add_zero]
      · split at h
        · -- end token
          rename_i hisend
          split at h
          · split at h
            · simp only [Option.some.injEq, Prod.mk.injEq] at h
              obtain ⟨hst, hb⟩ := h
              obtain ⟨hr, hw, ds, hd, hn⟩ := next_state_fn_frame cfg t st
              refine ⟨ds, 1, ?_, ?_, ?_, fun hne => absurd hisend hne⟩
              · rw [← hst]; exact hd
              · rw [← hst]; exact hn
              · rw [← hst]
                show (next_state_fn cfg t st).resets + 1 = st.resets + 1
                rw [hr]
            · simp only [Option.some.injEq, Prod.mk.injEq] at h
              obtain ⟨hst, hb⟩ := h
              obtain ⟨hr, hw, ds, hd, hn⟩ := next_state_fn_frame cfg t st
              refine ⟨ds, 0, ?_, ?_, ?_, fun _ => rfl⟩
              · rw [← hst]; exact hd
              · rw [← hst]; exact hn
              · rw [← hst]
                show (next_state_fn cfg t st).resets = st.resets + 0
                rw [hr, Nat.add_zero]
          · simp only [Option.some.injEq, Prod.mk.injEq] at h
            obtain ⟨hst, hb⟩ := h
            subst hst
            exact ⟨[], 0, by simp, by simp [orAll], rfl, fun _ => rfl⟩
        · simp only [Option.some.injEq, Prod.mk.injEq] at h
          obtain ⟨hst, hb⟩ := h
          subst hst
          exact ⟨[], 0, by simp, by simp [orAll], rfl, fun _ => rfl⟩

/-- Frame of the inner token loop. -/
theorem tryTokens_frame (cfg : Config) (input : List Char) : (l : List Token) →
    (st st1 : MState) → (b : Bool) → tryTokens cfg input l st = some (st1, b) →
    ∃ ds, st1.dispatches = st.dispatches ++ ds ∧
      st1.needs_tree_render = (st.needs_tree_render || orAll ds)
  | [], st, st1, b, h => by
    rw [tryTokens] at h
    simp only [Option.some.injEq, Prod.mk.injEq] at h
    obtain ⟨hst, _⟩ := h
    subst hst
    exact ⟨[], by simp, by simp [orAll]⟩
  | t :: rest, st, st1, b, h => by
    rw [tryTokens] at h
    cases htt : tryToken cfg input t st with
    | none => rw [htt] at h; simp at h
    | some p =>
      obtain ⟨stx, bx⟩ := p
      rw [htt] at h
      cases bx with
      | true =>
        simp only [Option.some.injEq, Prod.mk.injEq] at h
        obtain ⟨hst, _⟩ := h
        obtain ⟨ds, k, hd, hn, _, _⟩ := tryToken_frame cfg input t st stx true htt
        subst hst
        exact ⟨ds, hd, hn⟩
      | false =>
        obtain ⟨ds1, k, hd1, hn1, _, _⟩ := tryToken_frame cfg input t st stx false htt
        obtain ⟨ds2, hd2, hn2⟩ := tryTokens_frame cfg input rest stx st1 b h
        refine ⟨ds1 ++ ds2, ?_, ?_⟩
        · rw [hd2, hd1, List.append_assoc]
        · rw [hn2, hn1, orAll_append, Bool.or_assoc]

/-- Frame of the driver loop: the dispatch record grows monotonically, and the
final render flag is the OR of the starting flag with the new dispatch
flags. -/
theorem parseLoop_frame (cfg : Config) (input : List Char) : (fuel : Nat) → (st : MState) →
    (out : ParseOutcome) → parseLoop cfg input fuel st = some out →
    ∃ ds, out.dispatches = st.dispatches ++ ds ∧
      out.needs_tree_render = (st.needs_tree_render || orAll ds)
  | 0, st, out, h => by rw [parseLoop] at h; simp at h
  | fuel + 1, st, out, h => by
    rw [parseLoop] at h
    by_cases hw : st.walk ≤ input.length
    · rw [if_pos hw] at h
      cases htt : tryTokens cfg input (cfg.tokens st.state)
          { st with walk := st.walk + skipWSCount (input.drop st.walk) } with
      | none => rw [htt] at h; simp at h
      | some p =>
        obtain ⟨stx, bx⟩ := p
        rw [htt] at h
        have hfr := tryTokens_frame cfg input (cfg.tokens st.state)
          { st with walk := st.walk + skipWSCount (input.drop st.walk) } stx bx htt
        cases bx with
        | true =>
          obtain ⟨ds1, hd1, hn1⟩ := hfr
          obtain ⟨ds2, hd2, hn2⟩ := parseLoop_frame cfg input fuel stx out h
          refine ⟨ds1 ++ ds2, ?_, ?_⟩
          · rw [hd2, hd1]
            show st.dispatches ++ ds1 ++ ds2 = st.dispatches ++ (ds1 ++ ds2)
            rw [List.append_assoc]
          · rw [hn2, hn1, orAll_append, Bool.or_assoc]
        | false =>
          simp only [Option.some.injEq] at h
          subst h
          obtain ⟨ds1, hd1, hn1⟩ := hfr
          exact ⟨ds1, hd1, hn1⟩
    · rw [if_neg hw] at h
      simp only [Option.some.injEq] at h
      subst h
      exact ⟨[], by simp [mkSuccess], by simp [mkSuccess, orAll]⟩

/-- Any error outcome of the driver loop carries exactly the formatted
message and caret line of the failure state. -/
theorem parseLoop_error_shape (cfg : Config) (input : List Char) : (fuel : Nat) →
    (st : MState) → (out : ParseOutcome) → parseLoop cfg input fuel st = some out →
    (s w : Nat) → out.error_state = some s → out.error_walk = some w →
    out.parse_error = true ∧
    out.error_message = some (errHead ++ possibleTokens (cfg.tokens s)) ∧
    out.errorposition = some (caretLine input.length w)
  | 0, st, out, h, s, w, hs, hw => by rw [parseLoop] at h; simp at h
  | fuel + 1, st, out, h, s, w, hs, hw => by
    rw [parseLoop] at h
    by_cases hwl : st.walk ≤ input.length
    · rw [if_pos hwl] at h
      cases htt : tryTokens cfg input (cfg.tokens st.state)
          { st with walk := st.walk + skipWSCount (input.drop st.walk) } with
      | none => rw [htt] at h; simp at h
      | some p =>
        obtain ⟨stx, bx⟩ := p
        rw [htt] at h
        cases bx with
        | true => exact parseLoop_error_shape cfg input fuel stx out h s w hs hw
        | false =>
          simp only [Option.some.injEq] at h
          subst h
          have hs2 : stx.state = s := by simpa [mkError] using hs
          have hw2 : stx.walk = w := by simpa [mkError] using hw
          subst hs2
          subst hw2
          exact ⟨rfl, rfl, rfl⟩
    · rw [if_neg hwl] at h
      simp only [Option.some.injEq] at h
      subst h
      simp [mkSuccess] at hs

theorem caretLine_eq (len w : Nat) :
    caretLine len w = List.replicate (min w len) ' ' ++ List.replicate (len - w) '^' := by
  induction len with
  | zero => simp [caretLine]
  | succ n ih =>
    by_cases h : n < w
    · have h1 : min w n = n := by omega
      have h2 : n - w = 0 := by omega
      have h3 : min w (n + 1) = n + 1 := by omega
      have h4 : (n + 1) - w = 0 := by omega
      rw [h1, h2] at ih
      rw [caretLine, List.range_succ, List.map_append, ← caretLine, ih, h3, h4]
      simp [h, List.replicate_succ']
    · have h3 : min w (n + 1) = min w n := by omega
      have h4 : (n + 1) - w = (n - w) + 1 := by omega
      rw [caretLine, List.range_succ, List.map_append, ← caretLine, ih, h3, h4]
      simp [h, List.replicate_succ']

theorem caretLine_length (len w : Nat) : (caretLine len w).length = len := by
  simp [caretLine]

/-- Tokens that fail without changing the machine state can be dropped from
the front of the token list. -/
theorem tryTokens_append_failures (cfg : Config) (input : List Char) : (pre l : List Token) →
    (st : MState) → (∀ t ∈ pre, tryToken cfg input t st = some (st, false)) →
    tryTokens cfg input (pre ++ l) st = tryTokens cfg input l st
  | [], l, st, _ => by simp
  | t :: pre, l, st, h => by
    rw [List.cons_append, tryTokens, h t (List.mem_cons_self t pre)]
    exact tryTokens_append_failures cfg input pre l st
      (fun u hu => h u (List.mem_cons_of_mem t hu))

/-- The iff form of the literal matcher: success is exactly case-insensitive
prefix inclusion (for literal texts without a NUL byte, which C string
literals cannot contain). -/
theorem litMatches_iff : (lit s : List Char) → nulc ∉ lit →
    (litMatches lit s = true ↔ ∃ r, s.map toLowerCh = lit.map toLowerCh ++ r)
  | [], s, _ => by simp [litMatches]
  | l :: ls, [], h => by
    have hl : l ≠ nulc := fun hEq => h (by simp [hEq])
    simp [litMatches, hl]
  | l :: ls, c :: cs, h => by
    have hl : l ≠ nulc := fun hEq => h (by simp [hEq])
    have hls : nulc ∉ ls := fun hm => h (by simp [hm])
    by_cases ht : toLowerCh l = toLowerCh c
    · have hstep : litMatches (l :: ls) (c :: cs) = litMatches ls cs := by
        simp [litMatches, ht, hl]
      rw [hstep, litMatches_iff ls cs hls]
      constructor
      · rintro ⟨r, hr⟩
        refine ⟨r, ?_⟩
        simp only [List.map_cons, List.cons_append]
        rw [ht, hr]
      · rintro ⟨r, hr⟩
        simp only [List.map_cons, List.cons_append] at hr
        injection hr with h1 h2
        exact ⟨r, h2⟩
    · have hstep : litMatches (l :: ls) (c :: cs) = false := by
        simp [litMatches, ht]
      rw [hstep]
      constructor
      · intro hF
        exact absurd hF (by simp)
      · rintro ⟨r, hr⟩
        simp only [List.map_cons, List.cons_append] at hr
        injection hr with h1 h2
        exact (ht h1.symm).elim

/-- A literal token without capture whose text matches consumes exactly the
length of the literal text and is handled. -/
theorem tryToken_literal (cfg : Config) (input : List Char) (t : Token) (st : MState)
    (lit : List Char) (hname : t.name = squote :: lit) (hid : t.identifier = none)
    (hm : litMatches lit (input.drop st.walk) = true) :
    tryToken cfg input t st
      = some (next_state_fn cfg t { st with walk := st.walk + lit.length }, true) := by
  unfold tryToken
  rw [hname]
  rw [if_pos (show (squote :: lit).headD nulc = squote from rfl)]
  rw [if_pos (show litMatches (squote :: lit).tail (input.drop st.walk) = true from hm)]
  have hp : pushTokStr t (squote :: lit).tail st = some st := by
    unfold pushTokStr
    rw [hid]
  rw [hp]
  rfl

/-! ### C4: selection-context resets at command terminators -/

/-- C4: within one parse_command call, the selection context is reinitialized
exactly when an end token matches end-of-input or a semicolon: an end token
consuming a comma and every non-end token leave the reset count unchanged,
an end token at end-of-input or a semicolon increments it by one, and parsing
two operations separated by a comma performs one fewer reset than the same
two operations separated by a semicolon. -/
theorem end_token_reset_discipline :
    (∀ (cfg : Config) (input : List Char) (t : Token) (st out : MState) (b : Bool),
      t.name = "end".data → charAt input st.walk = ',' →
      tryToken cfg input t st = some (out, b) → out.resets = st.resets)
    ∧ (∀ (cfg : Config) (input : List Char) (t : Token) (st : MState),
        t.name = "end".data →
        (charAt input st.walk = ';' ∨ charAt input st.walk = nulc) →
        ∃ out, tryToken cfg input t st = some (out, true) ∧ out.resets = st.resets + 1)
    ∧ (∀ (cfg : Config) (input : List Char) (t : Token) (st out : MState) (b : Bool),
        t.name ≠ "end".data → tryToken cfg input t st = some (out, b) →
        out.resets = st.resets)
    ∧ (parse_command cfgA inMoveCommaIn 12 = some outCommaA
        ∧ parse_command cfgA inMoveSemiIn 12 = some outSemiA
        ∧ outSemiA.resets = outCommaA.resets + 1) := by
  refine ⟨?_, ?_, ?_, by decide, by decide, by decide⟩
  · intro cfg input t st out b hname hchar h
    unfold tryToken at h
    rw [hname] at h
    rw [if_neg (by decide : ¬(("end".data : List Char).headD nulc = squote))] at h
    rw [if_neg (by decide : ¬(("end".data : List Char) = "number".data))] at h
    rw [if_neg (by decide :
      ¬(("end".data : List Char) = "string".data ∨ ("end".data : List Char) = "word".data))] at h
    rw [if_pos rfl] at h
    rw [if_pos (Or.inr (Or.inl hchar))] at h
    rw [if_neg (by simp [hchar, nulc] : ¬(charAt input st.walk = nulc ∨
      charAt input st.walk = ';'))] at h
    simp only [Option.some.injEq, Prod.mk.injEq] at h
    obtain ⟨hst, _⟩ := h
    rw [← hst]
    show (next_state_fn cfg t st).resets = st.resets
    exact (next_state_fn_frame cfg t st).1
  · intro cfg input t st hname hchar
    refine ⟨{ next_state_fn cfg t st with
              resets := (next_state_fn cfg t st).resets + 1
              walk := (next_state_fn cfg t st).walk + 1 }, ?_, ?_⟩
    · unfold tryToken
      rw [hname]
      rw [if_neg (by decide : ¬(("end".data : List Char).headD nulc = squote))]
      rw [if_neg (by decide : ¬(("end".data : List Char) = "number".data))]
      rw [if_neg (by decide :
        ¬(("end".data : List Char) = "string".data ∨ ("end".data : List Char) = "word".data))]
      rw [if_pos rfl]
      have hcond : charAt input st.walk = nulc ∨ charAt input st.walk = ','
          ∨ charAt input st.walk = ';' := by
        rcases hchar with hc | hc
        · exact Or.inr (Or.inr hc)
        · exact Or.inl hc
      rw [if_pos hcond]
      have hcond2 : charAt input st.walk = nulc ∨ charAt input st.walk = ';' := by
        rcases hchar with hc | hc
        · exact Or.inr hc
        · exact Or.inl hc
      rw [if_pos hcond2]
    · show (next_state_fn cfg t st).resets + 1 = st.resets + 1
      rw [(next_state_fn_frame cfg t st).1]
  · intro cfg input t st out b hne h
    obtain ⟨ds, k, _, _, hr, himp⟩ := tryToken_frame cfg input t st out b h
    rw [hr, himp hne, Nat.add_zero]

theorem end_token_reset_discipline_witness :
    (tryToken cfgA [','] tokEnd0 initMState = some (outEndTokA, true)
      ∧ outEndTokA.resets = initMState.resets) ∧
    (∃ out, tryToken cfgA [] tokEnd0 initMState = some (out, true)
      ∧ out.resets = initMState.resets + 1) ∧
    (tryToken cfgA "x".data tokLitMove initMState = some (initMState, false)
      ∧ initMState.resets = initMState.resets) :=
  ⟨⟨by decide,
      end_token_reset_discipline.1 cfgA [','] tokEnd0 initMState outEndTokA true rfl
        (by decide) (by decide)⟩,
    end_token_reset_discipline.2.1 cfgA [] tokEnd0 initMState rfl (Or.inr (by decide)),
    ⟨by decide,
      end_token_reset_discipline.2.2.1 cfgA "x".data tokLitMove initMState initMState false
        (by decide) (by decide)⟩⟩

/-! ### C5: the error message and the caret line -/

/-- C5: whenever no token descriptor matches, the result carries parse_error
true, the message Expected one of these tokens followed by the descriptors of
the failure state in table order (literals in single quotes, other kinds in
angle brackets, joined by comma-space), and a caret line of exactly the input
length: spaces strictly before the failure offset and carets from there to
the end; concretely, the input mve left against the table whose INITIAL state
holds only the literal move fails with message Expected one of these tokens:
quote-move-quote and a caret line of eight carets with no leading spaces. -/
theorem error_message_format :
    (∀ (cfg : Config) (input : List Char) (fuel : Nat) (out : ParseOutcome) (s w : Nat),
      parse_command cfg input fuel = some out →
      out.error_state = some s → out.error_walk = some w →
      out.parse_error = true ∧
      out.error_message = some (errHead ++ possibleTokens (cfg.tokens s)) ∧
      out.errorposition = some (List.replicate (min w input.length) ' '
        ++ List.replicate (input.length - w) '^') ∧
      (List.replicate (min w input.length) ' '
        ++ List.replicate (input.length - w) '^').length = input.length)
    ∧ parse_command cfgMove5 "mve left".data 6 = some outMveA := by
  constructor
  · intro cfg input fuel out s w h hs hw
    obtain ⟨h1, h2, h3⟩ := parseLoop_error_shape cfg input fuel initMState out h s w hs hw
    refine ⟨h1, h2, ?_, ?_⟩
    · rw [h3, caretLine_eq]
    · rw [← caretLine_eq]
      exact caretLine_length input.length w
  · decide

theorem error_message_format_witness :
    outMveA.parse_error = true ∧
    outMveA.error_message = some (errHead ++ possibleTokens (cfgMove5.tokens 0)) ∧
    outMveA.errorposition = some (List.replicate (min 0 ("mve left".data.length)) ' '
      ++ List.replicate ("mve left".data.length - 0) '^') ∧
    (List.replicate (min 0 ("mve left".data.length)) ' '
      ++ List.replicate ("mve left".data.length - 0) '^').length = "mve left".data.length :=
  error_message_format.1 cfgMove5 "mve left".data 6 outMveA 0 0 (by decide) (by decide) (by decide)

/-! ### C6: empty input parses successfully via the end token -/

/-- C6: for the empty input, the driver loop is entered once because the loop
condition offset less-or-equal length includes the boundary offset = length;
provided the INITIAL token list of the table contains an end token (with an
ordinary next state) preceded only by tokens that fail on empty input, the
end token matches the terminating empty position and parse_command succeeds
with no dispatch (and one loop-internal selection reset beyond the initial
one). -/
theorem empty_input_success (cfg : Config) (pre rest : List Token) (endTok : Token)
    (s2 fuel : Nat)
    (htab : cfg.tokens INITIAL = pre ++ endTok :: rest)
    (hname : endTok.name = "end".data)
    (hnext : endTok.next = CNext.state s2)
    (hpre : ∀ t ∈ pre, tryToken cfg [] t initMState = some (initMState, false)) :
    parse_command cfg [] (fuel + 2) = some ⟨false, none, none, false, 2, [], none, none⟩ := by
  unfold parse_command
  have hX : next_state_fn cfg endTok initMState = ⟨s2, 0, emptyStack, false, 1, []⟩ := by
    unfold next_state_fn
    split
    · rename_i cid heq
      rw [hnext] at heq
      exact CNext.noConfusion heq
    · rename_i s3 heq
      rw [hnext] at heq
      injection heq with h3
      subst h3
      split <;> rfl
  have hend : tryToken cfg [] endTok initMState
      = some (⟨s2, 1, emptyStack, false, 2, []⟩, true) := by
    unfold tryToken
    rw [hname]
    rw [if_neg (by decide : ¬(("end".data : List Char).headD nulc = squote))]
    rw [if_neg (by decide : ¬(("end".data : List Char) = "number".data))]
    rw [if_neg (by decide :
      ¬(("end".data : List Char) = "string".data ∨ ("end".data : List Char) = "word".data))]
    rw [if_pos rfl]
    rw [if_pos (Or.inl (by decide : charAt [] initMState.walk = nulc))]
    rw [if_pos (Or.inl (by decide : charAt [] initMState.walk = nulc))]
    rw [hX]
  have htt : tryTokens cfg [] (cfg.tokens INITIAL) initMState
      = some (⟨s2, 1, emptyStack, false, 2, []⟩, true) := by
    rw [htab, tryTokens_append_failures cfg [] pre (endTok :: rest) initMState hpre,
      tryTokens, hend]
  show parseLoop cfg [] (fuel + 1 + 1) initMState = _
  rw [parseLoop]
  rw [if_pos (by decide : initMState.walk ≤ ([] : List Char).length)]
  have hstw : { initMState with
      walk := initMState.walk + skipWSCount (([] : List Char).drop initMState.walk) }
      = initMState := rfl
  rw [hstw]
  have hstate : initMState.state = INITIAL := rfl
  rw [hstate, htt]
  show parseLoop cfg [] (fuel + 1) ⟨s2, 1, emptyStack, false, 2, []⟩
      = some ⟨false, none, none, false, 2, [], none, none⟩
  cases fuel with
  | zero =>
    rw [parseLoop]
    rw [if_neg (show ¬((⟨s2, 1, emptyStack, false, 2, []⟩ : MState).walk
      ≤ ([] : List Char).length) from by simp)]
    rfl
  | succ fuel2 =>
    rw [parseLoop]
    rw [if_neg (show ¬((⟨s2, 1, emptyStack, false, 2, []⟩ : MState).walk
      ≤ ([] : List Char).length) from by simp)]
    rfl

theorem empty_input_success_witness :
    parse_command cfgA [] 2 = some ⟨false, none, none, false, 2, [], none, none⟩ :=
  empty_input_success cfgA [tokLitMove] [] tokEnd0 0 0 rfl rfl rfl
    (by
      intro t ht
      rw [List.mem_singleton] at ht
      subst ht
      decide)

/-! ### C7: the render-request flag is the OR of the dispatch flags -/

/-- C7: within one parse_command call the render-request flag is monotone
(once true at any loop state, it is true in the returned result) and the
returned flag equals the OR of the needs_tree_render flags returned by all
dispatches performed during the call. -/
theorem render_flag_or_of_dispatches :
    (∀ (cfg : Config) (input : List Char) (fuel : Nat) (st : MState) (out : ParseOutcome),
      parseLoop cfg input fuel st = some out → st.needs_tree_render = true →
      out.needs_tree_render = true)
    ∧ (∀ (cfg : Config) (input : List Char) (fuel : Nat) (out : ParseOutcome),
      parse_command cfg input fuel = some out →
      out.needs_tree_render = orAll out.dispatches) := by
  constructor
  · intro cfg input fuel st out h hset
    obtain ⟨ds, _, hn⟩ := parseLoop_frame cfg input fuel st out h
    rw [hn, hset]
    simp
  · intro cfg input fuel out h
    obtain ⟨ds, hd, hn⟩ := parseLoop_frame cfg input fuel initMState out h
    rw [hn, hd]
    show (false || orAll ds) = orAll ([] ++ ds)
    simp

theorem render_flag_or_witness :
    parse_command cfgA inMoveCommaIn 12 = some outCommaA ∧
    outCommaA.needs_tree_render = orAll outCommaA.dispatches :=
  ⟨by decide,
    render_flag_or_of_dispatches.2 cfgA inMoveCommaIn 12 outCommaA (by decide)⟩

/-! ### C10: the literal matcher needs no word boundary -/

/-- C10: the literal matcher succeeds exactly when the literal text is a
case-insensitive prefix of the remaining input, with no requirement of a
following delimiter: a matching capture-free literal token is handled and
consumes exactly the length of the literal; concretely, against the table
expecting the literal move, the input moveleft matches, consumes the four
characters move leaving left, and the whole command moveleft parses. -/
theorem literal_prefix_no_boundary :
    (∀ lit s : List Char, nulc ∉ lit →
      (litMatches lit s = true ↔ ∃ r, s.map toLowerCh = lit.map toLowerCh ++ r))
    ∧ (∀ (cfg : Config) (input : List Char) (t : Token) (st : MState) (lit : List Char),
        t.name = squote :: lit → t.identifier = none →
        litMatches lit (input.drop st.walk) = true →
        tryToken cfg input t st
          = some (next_state_fn cfg t { st with walk := st.walk + lit.length }, true))
    ∧ tryToken cfgA "moveleft".data tokLitMove initMState
        = some (⟨1, 4, emptyStack, false, 1, []⟩, true)
    ∧ parse_command cfgA "moveleft".data 10 = some outMoveLeftA
    ∧ "moveleft".data.drop 4 = "left".data := by
  exact ⟨litMatches_iff, tryToken_literal, by decide, by decide, by decide⟩

theorem literal_prefix_no_boundary_witness :
    (litMatches "move".data "moveleft".data = true ↔
      ∃ r, "moveleft".data.map toLowerCh = "move".data.map toLowerCh ++ r) ∧
    tryToken cfgA "moveleft".data tokLitMove initMState
      = some (next_state_fn cfgA tokLitMove
          { initMState with walk := initMState.walk + "move".data.length }, true) :=
  ⟨literal_prefix_no_boundary.1 "move".data "moveleft".data (by decide),
    literal_prefix_no_boundary.2.1 cfgA "moveleft".data tokLitMove initMState "move".data
      rfl rfl (by decide)⟩

end Cmds
